import Mathlib

/-!
# Verification of the kustomize-build-check dependency graph and impact analyzer

Shallow embedding of the core of `michielvha/kustomize-build-check`:
the dependency-graph builder and query surface (`internal/graph/graph.go`)
and the impact analyzer (`internal/analyzer/analyzer.go`), together with the
Go standard-library path helpers they use (`path/filepath` on Unix:
`Clean`, `Join`, `Ext`, `Base`, `Dir`, `Abs`, and `strings.HasPrefix`).

Paths are strings over the separator `'/'`.  Go maps are modelled as
association lists with insert-or-replace update; Go's in-place pointer
mutation of nodes becomes functional update keyed by path.  The recursive
depth-first traversal `GetAllDependents` is modelled with an explicit
nesting-depth fuel that provably never runs out (each nesting level first
inserts a fresh node into the visited set, whose size is bounded by the
total number of dependent entries, and the fuel exceeds that bound).
-/

/-! ## Go `path/filepath` primitives (Unix rules) -/

/-- Split a character list on `'/'`; mirrors the element decomposition that
`filepath.Clean` performs while scanning the path. -/
def splitSlash : List Char → List (List Char)
  | [] => [[]]
  | c :: cs =>
    if c = '/' then [] :: splitSlash cs
    else
      match splitSlash cs with
      | [] => [[c]]
      | g :: gs => (c :: g) :: gs

/-- One step of `filepath.Clean`'s element processing: drop empty and `"."`
elements, process `".."` (pop a poppable last element, else drop when rooted,
else keep the `".."`), append any other element. -/
def normStep (rooted : Bool) (stack : List (List Char)) (c : List Char) : List (List Char) :=
  if c = [] ∨ c = ['.'] then stack
  else if c = ['.', '.'] then
    if stack ≠ [] ∧ stack.getLast? ≠ some ['.', '.'] then stack.dropLast
    else if rooted then stack
    else stack ++ [['.', '.']]
  else stack ++ [c]

/-- Process all elements of a split path, as `filepath.Clean` does. -/
def cleanStack (rooted : Bool) (comps : List (List Char)) : List (List Char) :=
  comps.foldl (normStep rooted) []

/-- Rejoin cleaned elements with single separators. -/
def joinComps : List (List Char) → List Char
  | [] => []
  | [c] => c
  | c :: cs => c ++ '/' :: joinComps cs

/-- Does the path begin with the separator? (`filepath.IsAbs` on Unix.) -/
def isRooted : List Char → Bool
  | [] => false
  | c :: _ => c = '/'

/-- Go `filepath.Clean` (Unix): shortest lexically equivalent path. -/
def fpClean (p : String) : String :=
  if p = "" then "."
  else
    let l := p.data
    let rooted := isRooted l
    let stack := cleanStack rooted (splitSlash l)
    if stack = [] then (if rooted then "/" else ".")
    else if rooted then String.mk ('/' :: joinComps stack)
    else String.mk (joinComps stack)

/-- Go `filepath.Join` restricted to two elements: empty elements are
dropped, the rest are joined with a separator and cleaned. -/
def fpJoin (a b : String) : String :=
  if a = "" then (if b = "" then "" else fpClean b)
  else fpClean (a ++ "/" ++ b)

/-- Backward scan for `filepath.Ext`: `seen` holds the characters already
passed, in original order; stop at a separator, return from the last dot. -/
def extScan (seen : List Char) : List Char → List Char
  | [] => []
  | c :: cs =>
    if c = '/' then []
    else if c = '.' then c :: seen
    else extScan (c :: seen) cs

/-- Go `filepath.Ext`: the suffix of the final element starting at its last
dot, or `""` when the final element has no dot. -/
def fpExt (p : String) : String :=
  String.mk (extScan [] p.data.reverse)

/-- Go `filepath.Base` (Unix): final element after stripping trailing
separators; `"."` for the empty path, `"/"` for all-separator paths. -/
def fpBase (p : String) : String :=
  if p = "" then "."
  else
    let t := (p.data.reverse.dropWhile (· = '/')).reverse
    if t = [] then "/"
    else String.mk (t.reverse.takeWhile (· ≠ '/')).reverse

/-- Go `filepath.Dir` (Unix): everything up to and including the final
separator, cleaned. -/
def fpDir (p : String) : String :=
  fpClean (String.mk ((p.data.reverse.dropWhile (· ≠ '/')).reverse))

/-- Go `strings.HasPrefix`. -/
def strHasPre (s pre : String) : Bool :=
  pre.data.isPrefixOf s.data

/-- Go `filepath.Abs`, with the process working directory passed explicitly:
an absolute path is cleaned, a relative one is joined onto the directory. -/
def fpAbs (cwd p : String) : String :=
  if isRooted p.data then fpClean p else fpJoin cwd p

/-! ## Data model (`internal/discovery`, `internal/graph`) -/

/-- `discovery.KustomizeFile`: one parsed kustomization unit. -/
structure KustomizeFile where
  Path : String
  Dir : String
  Resources : List String
  Bases : List String
  Components : List String
deriving DecidableEq, Repr

/-- `graph.Node`: one entry of the dependency graph. -/
structure Node where
  Path : String
  IsBase : Bool
  Dependencies : List String
deriving DecidableEq, Repr

/-- `graph.DependencyGraph`: the node map and the reverse-adjacency map,
each modelled as an association list standing for a Go map. -/
structure DependencyGraph where
  nodes : List (String × Node)
  reverseLookup : List (String × List String)
deriving DecidableEq, Repr

/-- Go map read `m[k]` (`ok` form): value at `k`, if present. -/
def mapFind {α : Type} (m : List (String × α)) (k : String) : Option α :=
  (m.find? (fun e => e.1 == k)).map (fun e => e.2)

/-- Go map write `m[k] = v`: replace the value at `k`, or add the key. -/
def mapInsert {α : Type} (m : List (String × α)) (k : String) (v : α) : List (String × α) :=
  if (m.find? (fun e => e.1 == k)).isSome then
    m.map (fun e => if e.1 == k then (e.1, v) else e)
  else m ++ [(k, v)]

/-- In-place mutation through a map-stored pointer, `m[k].f = ...`:
functional update of the value at `k`, no-op for an absent key. -/
def mapUpdate {α : Type} (m : List (String × α)) (k : String) (f : α → α) : List (String × α) :=
  m.map (fun e => if e.1 == k then (e.1, f e.2) else e)

/-- Go `m[k] = append(m[k], v)` on a `map[string][]string`: append to the
existing list, or create a one-element list at a fresh key. -/
def rlAppend (m : List (String × List String)) (k v : String) : List (String × List String) :=
  if (m.find? (fun e => e.1 == k)).isSome then
    m.map (fun e => if e.1 == k then (e.1, e.2 ++ [v]) else e)
  else m ++ [(k, [v])]

/-- List of keys of a modelled map. -/
def keysOf {α : Type} (m : List (String × α)) : List String :=
  m.map (fun e => e.1)

/-! ## Dependency graph builder (`graph.Build`, `graph.extractDependencies`) -/

/-- `graph.extractDependencies`: resources entries with a non-empty
extension are skipped; bases and components entries are appended as-is. -/
def extractDependencies (file : KustomizeFile) : List String :=
  (file.Resources.filter (fun resource => fpExt resource == "")) ++ file.Bases ++ file.Components

/-- First pass of `Build`: one fresh node per unit, keyed by its directory. -/
def buildPass1 (files : List KustomizeFile) : List (String × Node) :=
  files.foldl
    (fun ns f => mapInsert ns f.Dir { Path := f.Dir, IsBase := false, Dependencies := [] }) []

/-- Second pass of `Build`, inner loop body: resolve one dependency of the
unit at `fileDir`; when a node exists at the resolved path, mark it as a
base and record the reverse edge, otherwise leave the graph unchanged. -/
def applyDep (fileDir : String) (g : DependencyGraph) (dep : String) : DependencyGraph :=
  let absDepPath := fpClean (fpJoin fileDir dep)
  if (mapFind g.nodes absDepPath).isSome then
    { nodes := mapUpdate g.nodes absDepPath (fun n => { n with IsBase := true }),
      reverseLookup := rlAppend g.reverseLookup absDepPath fileDir }
  else g

/-- Second pass of `Build`, outer loop body: store the unit's extracted
dependency list on its node, then resolve each dependency. -/
def buildPass2File (g : DependencyGraph) (f : KustomizeFile) : DependencyGraph :=
  let deps := extractDependencies f
  let g1 : DependencyGraph :=
    { g with nodes := mapUpdate g.nodes f.Dir (fun n => { n with Dependencies := deps }) }
  deps.foldl (applyDep f.Dir) g1

/-- The graph state produced by `graph.Build` on a fresh graph. -/
def buildGraph (files : List KustomizeFile) : DependencyGraph :=
  files.foldl buildPass2File { nodes := buildPass1 files, reverseLookup := [] }

/-- `graph.Build` itself: it ends with `return nil`, so the error is always
absent; the built state is as in `buildGraph`. -/
def Build (files : List KustomizeFile) : Except String DependencyGraph :=
  Except.ok (buildGraph files)

/-! ## Graph query surface -/

/-- `graph.IsBase`. -/
def IsBase (g : DependencyGraph) (path : String) : Bool :=
  match mapFind g.nodes (fpClean path) with
  | some node => node.IsBase
  | none => false

/-- `graph.GetDependentOverlays` (the Go copy of the slice is the list
itself in the functional model). -/
def GetDependentOverlays (g : DependencyGraph) (basePath : String) : List String :=
  match mapFind g.reverseLookup (fpClean basePath) with
  | some overlays => overlays
  | none => []

/-- `graph.GetNode`. -/
def GetNode (g : DependencyGraph) (path : String) : Option Node :=
  mapFind g.nodes (fpClean path)

/-- Reverse-adjacency read inside `collectDependents`:
`g.reverseLookup[currentPath]`, with a missing key giving no dependents. -/
def lookupRL (rl : List (String × List String)) (k : String) : List String :=
  match rl.find? (fun e => e.1 == k) with
  | some e => e.2
  | none => []

/-- Total number of dependent entries of the reverse lookup; one more than
this bounds the nesting depth of `collectDependents`. -/
def totalRL (rl : List (String × List String)) : Nat :=
  rl.foldl (fun n e => n + e.2.length) 0

/-- The recursive closure `collectDependents` of `GetAllDependents`:
processes a pending list of dependents of the current node; a cleaned
dependent already in the visited list `acc` is skipped, a fresh one is
appended and immediately expanded recursively (`fuel` bounds the nesting
depth; with the fuel used by `GetAllDependents` the zero case is
unreachable).  The visited set and the result slice of the Go code receive
exactly the same insertions, so one list `acc` models both. -/
def collectLevel (rl : List (String × List String)) :
    Nat → List String → List String → List String
  | 0, _, acc => acc
  | fuel + 1, l, acc =>
    l.foldl
      (fun a dep =>
        let d := fpClean dep
        if d ∈ a then a
        else collectLevel rl fuel (lookupRL rl d) (a ++ [d]))
      acc

/-- `graph.GetAllDependents`: clean the path, then run the cycle-guarded
depth-first collection starting from its direct dependents (the inner
helper cleans the current path again before the lookup). -/
def GetAllDependents (g : DependencyGraph) (path : String) : List String :=
  let p := fpClean path
  collectLevel g.reverseLookup (totalRL g.reverseLookup + 1)
    (lookupRL g.reverseLookup (fpClean p)) []

/-! ## Impact analyzer (`internal/analyzer`) -/

/-- `analyzer.isKustomizationFile`. -/
def isKustomizationFile (name : String) : Bool :=
  name == "kustomization.yaml" || name == "kustomization.yml" || name == "Kustomization"

/-- `analyzer.fileReferencedByKustomization`: requires the cleaned changed
file to have the cleaned unit directory as a string prefix, then matches it
against each resources entry resolved relative to the unit directory
(equality, or descendant across a separator). -/
def fileReferencedByKustomization (changedFile0 : String) (kust : KustomizeFile) : Bool :=
  let changedFile := fpClean changedFile0
  let kustDir := fpClean kust.Dir
  if !(strHasPre changedFile kustDir) then false
  else
    kust.Resources.any (fun resource =>
      let resourcePath := fpClean (fpJoin kustDir resource)
      changedFile == resourcePath || strHasPre changedFile (resourcePath ++ "/"))

/-- Insertion into the affected set (`affected[dir] = true` on a Go map,
with the model fixing the iteration order to insertion order). -/
def setInsert (acc : List String) (x : String) : List String :=
  if x ∈ acc then acc else acc ++ [x]

/-- `analyzer.addAffected`: insert the cleaned directory itself, then every
cleaned element of its transitive dependent closure. -/
def addAffected (dir : String) (g : DependencyGraph) (affected : List String) : List String :=
  let d := fpClean dir
  (GetAllDependents g d).foldl (fun a dependent => setInsert a (fpClean dependent))
    (setInsert affected d)

/-- Body of the analyzer's loop over changed files: a changed unit-definition
file marks its own (absolutized) directory; any other changed file marks
every unit whose reference set it falls into. -/
def processChangedFile (cwd : String) (g : DependencyGraph)
    (allKustomizations : List KustomizeFile) (affected : List String)
    (changedFile : String) : List String :=
  if isKustomizationFile (fpBase changedFile) then
    addAffected (fpAbs cwd (fpDir changedFile)) g affected
  else
    allKustomizations.foldl
      (fun acc kust =>
        if fileReferencedByKustomization changedFile kust then addAffected kust.Dir g acc
        else acc)
      affected

/-- `analyzer.GetAffectedKustomizations`, with the process working directory
(used by `filepath.Abs`) passed explicitly. -/
def GetAffectedKustomizations (cwd : String) (changedFiles : List String)
    (g : DependencyGraph) (allKustomizations : List KustomizeFile) : List String :=
  changedFiles.foldl (processChangedFile cwd g allKustomizations) []


/-! ## Derived notions used by the verification -/

/-- Element-level well-formedness of a cleaned path's component stack:
no empty component, no `"."`, no separator inside a component. -/
def NFComps (stack : List (List Char)) : Prop :=
  ∀ g ∈ stack, g ≠ [] ∧ g ≠ ['.'] ∧ '/' ∉ g

/-- Shape of a cleaned component stack: a (possibly empty) leading run of
`".."` components followed by components that are not `".."`; rooted paths
have no leading `".."` run. -/
def NFShape (rooted : Bool) (stack : List (List Char)) : Prop :=
  ∃ k names, stack = List.replicate k ['.', '.'] ++ names ∧
    ['.', '.'] ∉ names ∧ (rooted = true → k = 0)

/-- Every dependent entry of the reverse lookup, cleaned and deduplicated:
the universe of strings `collectDependents` can ever insert. -/
def cleanedVals (rl : List (String × List String)) : List String :=
  (((rl.map (fun e => e.2)).flatten).map fpClean).dedup

/-- One reverse-dependency step: `y` is a cleaned direct dependent of `x`. -/
def RStep (rl : List (String × List String)) (x y : String) : Prop :=
  y ∈ (lookupRL rl x).map fpClean

/-- Invariant maintained by the second pass of `Build`: node keys stay
those of the first pass, every reverse-lookup key is a node key, and every
base-marked node is the resolution of some unit's extracted dependency. -/
def BuildInv (files : List KustomizeFile) (g : DependencyGraph) : Prop :=
  keysOf g.nodes = keysOf (buildPass1 files) ∧
  (∀ k ∈ keysOf g.reverseLookup, k ∈ keysOf g.nodes) ∧
  (∀ k n, mapFind g.nodes k = some n → n.IsBase = true →
    ∃ f ∈ files, ∃ d ∈ extractDependencies f, fpClean (fpJoin f.Dir d) = k)

/-! ## Spec-side reference matching (for the refinement comparison)

The specification (§4.3b) describes the analyzer's reference-matching step
without the implementation's directory-prefix guard and over all three
declaration fields.  The following definition transcribes the spec's words;
the theorems below compare it with `fileReferencedByKustomization` from the
source. -/

/-- The spec's matching condition: the changed file's canonical path equals,
or is a descendant across a separator boundary of, one of the unit's
declared references resolved relative to the unit's own directory. -/
def specReferenceMatch (changedFile : String) (kust : KustomizeFile) : Bool :=
  (kust.Resources ++ kust.Bases ++ kust.Components).any (fun r =>
    let rp := fpClean (fpJoin kust.Dir r)
    fpClean changedFile == rp || strHasPre (fpClean changedFile) (rp ++ "/"))

/-! ## Concrete fixtures -/

/-- The unit collection of C1: a base with a file-only reference, two
overlays on the base, and an overlay on the first overlay. -/
def chainUnits : List KustomizeFile :=
  [ { Path := "/r/base/kustomization.yaml", Dir := "/r/base",
      Resources := ["deployment.yaml"], Bases := [], Components := [] },
    { Path := "/r/ov1/kustomization.yaml", Dir := "/r/ov1",
      Resources := ["../base"], Bases := [], Components := [] },
    { Path := "/r/ov2/kustomization.yaml", Dir := "/r/ov2",
      Resources := ["../ov1"], Bases := [], Components := [] },
    { Path := "/r/ov3/kustomization.yaml", Dir := "/r/ov3",
      Resources := ["../base"], Bases := [], Components := [] } ]

/-- The cyclic graph of `TestGetAllDependentsNoCycles`: reverse-adjacency
`a → c → b → a`. -/
def cycleGraph : DependencyGraph :=
  { nodes :=
      [ ("/test/a", { Path := "/test/a", IsBase := false, Dependencies := ["../b"] }),
        ("/test/b", { Path := "/test/b", IsBase := false, Dependencies := ["../c"] }),
        ("/test/c", { Path := "/test/c", IsBase := false, Dependencies := ["../a"] }) ],
    reverseLookup :=
      [ ("/test/a", ["/test/c"]),
        ("/test/b", ["/test/a"]),
        ("/test/c", ["/test/b"]) ] }

/-- A unit whose only declared reference sits in the deprecated bases list
and carries a file extension. -/
def basesOnlyUnit : KustomizeFile :=
  { Path := "", Dir := "/t", Resources := [], Bases := ["common.yaml"], Components := [] }

/-- A unit whose only resource reference resolves outside its own
directory. -/
def outsideRefUnit : KustomizeFile :=
  { Path := "", Dir := "/r/ov", Resources := ["../base"], Bases := [], Components := [] }

/-- The empty graph (`graph.New()` before any `Build`). -/
def newGraph : DependencyGraph :=
  { nodes := [], reverseLookup := [] }

/-! ## Helper lemmas -/

/-- With an empty unit collection, a changed file that is not a recognized
unit-definition file leaves the affected set untouched. -/
theorem foldl_processChangedFile_nil_units (cwd : String) (g : DependencyGraph) :
    ∀ (changed : List String) (acc : List String),
      (∀ f ∈ changed, isKustomizationFile (fpBase f) = false) →
      changed.foldl (processChangedFile cwd g []) acc = acc := by
  intro changed
  induction changed with
  | nil => intro acc _; rfl
  | cons f rest ih =>
    intro acc h
    have hf : isKustomizationFile (fpBase f) = false := h f (by simp)
    have hrest : ∀ x ∈ rest, isKustomizationFile (fpBase x) = false :=
      fun x hx => h x (by simp [hx])
    have hstep : processChangedFile cwd g [] acc f = acc := by
      simp [processChangedFile, hf]
    simp only [List.foldl_cons, hstep]
    exact ih acc hrest

/-! ## Claim theorems -/

/-- C1: for the unit collection with `base` holding only a file reference,
`overlay1` referencing `base`, `overlay2` referencing `overlay1` and
`overlay3` referencing `base`, building the graph and analyzing the single
changed file `/r/base/kustomization.yaml` returns an affected set that is
exactly the four directories `base, overlay1, overlay2, overlay3`. -/
theorem C1_base_change_affects_whole_chain :
    GetAffectedKustomizations "/" ["/r/base/kustomization.yaml"]
      (buildGraph chainUnits) chainUnits
      = ["/r/base", "/r/ov1", "/r/ov2", "/r/ov3"] := by decide

/-- C3 counterexample: a deprecated-bases entry with the file-extension-like
suffix `.yaml` is not ignored by `extractDependencies` — it is returned as a
candidate directory dependency, contradicting the claim that every entry of
the three lists is ignored iff it has a non-empty extension. -/
theorem C3_counterexample :
    extractDependencies basesOnlyUnit = ["common.yaml"] ∧ fpExt "common.yaml" = ".yaml" := by
  decide

/-- C3 amended: the extension filter applies only to the resources list;
entries of the deprecated bases list and of the components list are always
candidate directory dependencies, whatever their suffix. -/
theorem C3_amended_extension_filter_resources_only (file : KustomizeFile) (d : String) :
    d ∈ extractDependencies file ↔
      (d ∈ file.Resources ∧ fpExt d = "") ∨ d ∈ file.Bases ∨ d ∈ file.Components := by
  simp [extractDependencies, List.mem_filter, List.mem_append]

/-- C4 counterexample: the changed file `/r/base/cm.yaml` is a
separator-boundary descendant of the unit's resolved reference
`/r/ov ⊕ ../base = /r/base` (the spec-side matching condition holds), yet
`fileReferencedByKustomization` rejects it, because the changed file does
not carry the unit's own directory `/r/ov` as a string prefix. -/
theorem C4_counterexample :
    specReferenceMatch "/r/base/cm.yaml" outsideRefUnit = true ∧
    fileReferencedByKustomization "/r/base/cm.yaml" outsideRefUnit = false := by decide

/-- C4 amended: a changed file is matched iff, in addition to the claimed
equal-or-boundary-descendant condition against a resolved reference, the
cleaned changed path has the unit's cleaned directory as a bare string
prefix, and only the resources entries (not bases or components) are
consulted. -/
theorem C4_amended_reference_match (changedFile : String) (kust : KustomizeFile) :
    fileReferencedByKustomization changedFile kust = true ↔
      strHasPre (fpClean changedFile) (fpClean kust.Dir) = true ∧
      ∃ r ∈ kust.Resources,
        fpClean changedFile = fpClean (fpJoin (fpClean kust.Dir) r) ∨
        strHasPre (fpClean changedFile) (fpClean (fpJoin (fpClean kust.Dir) r) ++ "/") = true := by
  by_cases h : strHasPre (fpClean changedFile) (fpClean kust.Dir) = true
  · simp [fileReferencedByKustomization, h, List.any_eq_true]
  · have h' : strHasPre (fpClean changedFile) (fpClean kust.Dir) = false :=
      Bool.not_eq_true _ ▸ Bool.of_not_eq_true h
    simp [fileReferencedByKustomization, h']

/-- C5 counterexample: with an empty unit collection but a changed file
named like a unit-definition file, the affected set is the file's directory,
not the empty set claimed for every changed-file list. -/
theorem C5_counterexample :
    GetAffectedKustomizations "/" ["/r/base/kustomization.yaml"] newGraph [] = ["/r/base"] ∧
    GetAffectedKustomizations "/" ["/r/base/kustomization.yaml"] newGraph [] ≠ [] := by decide

/-- C5 amended: an empty changed-file list yields an empty affected set for
every graph and unit collection; an empty unit collection yields an empty
affected set provided no changed file is itself a recognized unit-definition
file (such files mark their own directory even without any unit). -/
theorem C5_amended_empty_inputs :
    (∀ (cwd : String) (g : DependencyGraph) (units : List KustomizeFile),
        GetAffectedKustomizations cwd [] g units = []) ∧
    (∀ (cwd : String) (g : DependencyGraph) (changedFiles : List String),
        (∀ f ∈ changedFiles, isKustomizationFile (fpBase f) = false) →
        GetAffectedKustomizations cwd changedFiles g [] = []) := by
  refine ⟨fun _ _ _ => rfl, fun cwd g changed h => ?_⟩
  exact foldl_processChangedFile_nil_units cwd g changed [] h

/-- C5 witness: the amended theorem applied to a concrete non-definition
changed file and the empty unit collection. -/
theorem C5_witness :
    GetAffectedKustomizations "/" ["/r/app/deploy.yaml"] newGraph [] = [] :=
  C5_amended_empty_inputs.2 "/" newGraph ["/r/app/deploy.yaml"] (by decide)

/-- C7: two graphs built from the same unit collection agree on the `IsBase`
flag of every path and on the reverse-dependent list of every base path
(graph construction is a pure function of its input in this embedding, so
repeated builds coincide). -/
theorem C7_build_deterministic (files : List KustomizeFile) (g1 g2 : DependencyGraph)
    (h1 : g1 = buildGraph files) (h2 : g2 = buildGraph files) :
    (∀ p, IsBase g1 p = IsBase g2 p) ∧
    (∀ p, GetDependentOverlays g1 p = GetDependentOverlays g2 p) := by
  subst h1; subst h2
  exact ⟨fun _ => rfl, fun _ => rfl⟩

/-- C7 witness: determinism instantiated on the chain collection at the base
path. -/
theorem C7_witness :
    IsBase (buildGraph chainUnits) "/r/base" = IsBase (buildGraph chainUnits) "/r/base" :=
  (C7_build_deterministic chainUnits (buildGraph chainUnits) (buildGraph chainUnits) rfl rfl).1
    "/r/base"

/-! ## Membership lemmas for the affected set (claim C2) -/

/-- `setInsert` puts its argument into the set. -/
theorem mem_setInsert_self (acc : List String) (x : String) : x ∈ setInsert acc x := by
  unfold setInsert
  split
  · assumption
  · simp

/-- `setInsert` keeps existing members. -/
theorem mem_setInsert_of_mem {acc : List String} {x : String} (y : String) (h : x ∈ acc) :
    x ∈ setInsert acc y := by
  unfold setInsert
  split
  · exact h
  · exact List.mem_append_left _ h

/-- A fold whose step keeps members keeps members. -/
theorem mem_foldl_of_mem {β : Type} (step : List String → β → List String)
    (hstep : ∀ a b x, x ∈ a → x ∈ step a b) :
    ∀ (l : List β) (acc : List String) (x : String), x ∈ acc → x ∈ l.foldl step acc := by
  intro l
  induction l with
  | nil => intro acc x h; exact h
  | cons b rest ih => intro acc x h; exact ih (step acc b) x (hstep acc b x h)

/-- `addAffected` keeps existing members of the affected set. -/
theorem mem_addAffected_of_mem {affected : List String} {x : String}
    (dir : String) (g : DependencyGraph) (h : x ∈ affected) :
    x ∈ addAffected dir g affected := by
  unfold addAffected
  exact mem_foldl_of_mem _ (fun a b y hy => mem_setInsert_of_mem _ hy) _ _ _
    (mem_setInsert_of_mem _ h)

/-- `addAffected` always contains the cleaned directory it was given. -/
theorem mem_addAffected_self (dir : String) (g : DependencyGraph) (affected : List String) :
    fpClean dir ∈ addAffected dir g affected := by
  unfold addAffected
  exact mem_foldl_of_mem _ (fun a b y hy => mem_setInsert_of_mem _ hy) _ _ _
    (mem_setInsert_self _ _)

/-- The analyzer's per-changed-file step keeps members of the affected set. -/
theorem mem_processChangedFile_of_mem (cwd : String) (g : DependencyGraph)
    (units : List KustomizeFile) (affected : List String) (f : String) (x : String)
    (h : x ∈ affected) : x ∈ processChangedFile cwd g units affected f := by
  unfold processChangedFile
  split
  · exact mem_addAffected_of_mem _ _ h
  · refine mem_foldl_of_mem _ (fun a kust y hy => ?_) _ _ _ h
    split
    · exact mem_addAffected_of_mem _ _ hy
    · exact hy

/-- A unit matched by a (non-definition) changed file gets its cleaned
directory into the result of the analyzer's inner fold over all units. -/
theorem mem_units_foldl (f : String) (g : DependencyGraph) :
    ∀ (units : List KustomizeFile) (acc : List String) (u : KustomizeFile),
      u ∈ units → fileReferencedByKustomization f u = true →
      fpClean u.Dir ∈ units.foldl
        (fun acc kust =>
          if fileReferencedByKustomization f kust then addAffected kust.Dir g acc else acc)
        acc := by
  intro units
  induction units with
  | nil => intro acc u hu; exact absurd hu (List.not_mem_nil u)
  | cons v rest ih =>
    intro acc u hu hmatch
    simp only [List.foldl_cons]
    rcases List.mem_cons.mp hu with rfl | hu'
    · refine mem_foldl_of_mem _ (fun a kust y hy => ?_) _ _ _ ?_
      · split
        · exact mem_addAffected_of_mem _ _ hy
        · exact hy
      · rw [if_pos hmatch]
        exact mem_addAffected_self _ _ _
    · exact ih _ u hu' hmatch

/-- C2: every directly-changed unit directory is itself in the affected set:
the (absolutized, cleaned) directory of a changed unit-definition file, and
the cleaned directory of every unit whose reference set a changed
non-definition file falls into, are members of the analyzer's result. -/
theorem C2_directly_changed_self_inclusion (cwd : String) (changedFiles : List String)
    (g : DependencyGraph) (units : List KustomizeFile) (f : String) (hf : f ∈ changedFiles) :
    (isKustomizationFile (fpBase f) = true →
      fpClean (fpAbs cwd (fpDir f)) ∈ GetAffectedKustomizations cwd changedFiles g units) ∧
    (isKustomizationFile (fpBase f) = false →
      ∀ u ∈ units, fileReferencedByKustomization f u = true →
        fpClean u.Dir ∈ GetAffectedKustomizations cwd changedFiles g units) := by
  obtain ⟨l1, l2, rfl⟩ := List.append_of_mem hf
  unfold GetAffectedKustomizations
  rw [List.foldl_append, List.foldl_cons]
  constructor
  · intro hk
    refine mem_foldl_of_mem _ (fun a b y hy => mem_processChangedFile_of_mem _ _ _ _ _ _ hy)
      _ _ _ ?_
    unfold processChangedFile
    rw [if_pos hk]
    exact mem_addAffected_self _ _ _
  · intro hk u hu hmatch
    refine mem_foldl_of_mem _ (fun a b y hy => mem_processChangedFile_of_mem _ _ _ _ _ _ hy)
      _ _ _ ?_
    unfold processChangedFile
    rw [if_neg (by simp [hk])]
    exact mem_units_foldl f g units _ u hu hmatch

/-- C2 witness: the changed definition file of the chain scenario puts its
own directory into the affected set. -/
theorem C2_witness :
    fpClean (fpAbs "/" (fpDir "/r/base/kustomization.yaml")) ∈
      GetAffectedKustomizations "/" ["/r/base/kustomization.yaml"]
        (buildGraph chainUnits) chainUnits :=
  (C2_directly_changed_self_inclusion "/" ["/r/base/kustomization.yaml"]
      (buildGraph chainUnits) chainUnits "/r/base/kustomization.yaml" (by decide)).1
    (by decide)

/-! ## Generic fold and map lemmas -/

/-- Invariant preservation through `List.foldl`. -/
theorem foldl_induction {α β : Type} (step : β → α → β) (P : β → Prop)
    (l : List α) (init : β) (h0 : P init)
    (hstep : ∀ b a, a ∈ l → P b → P (step b a)) : P (l.foldl step init) := by
  induction l generalizing init with
  | nil => exact h0
  | cons a rest ih =>
    exact ih (step init a) (hstep init a (by simp) h0)
      (fun b x hx hb => hstep b x (by simp [hx]) hb)

/-- A found key is a key. -/
theorem mem_keysOf_of_mapFind_isSome {α : Type} {m : List (String × α)} {k : String}
    (h : (mapFind m k).isSome) : k ∈ keysOf m := by
  unfold mapFind at h
  rw [Option.isSome_map'] at h
  obtain ⟨e, he⟩ := Option.isSome_iff_exists.mp h
  have hmem := List.mem_of_find?_eq_some he
  have hk := List.find?_some he
  rw [beq_iff_eq] at hk
  exact hk ▸ List.mem_map_of_mem (fun e => e.1) hmem

/-- A missing key is found as `none`. -/
theorem mapFind_eq_none_of_not_mem {α : Type} {m : List (String × α)} {k : String}
    (h : k ∉ keysOf m) : mapFind m k = none := by
  unfold mapFind
  rw [Option.map_eq_none', List.find?_eq_none]
  intro e he
  rw [beq_iff_eq]
  exact fun hk => h (hk ▸ List.mem_map_of_mem (fun e => e.1) he)

/-- `mapUpdate` leaves the key list unchanged. -/
theorem keysOf_mapUpdate {α : Type} (m : List (String × α)) (k : String) (f : α → α) :
    keysOf (mapUpdate m k f) = keysOf m := by
  unfold keysOf mapUpdate
  rw [List.map_map]
  refine List.map_congr_left (fun e _ => ?_)
  by_cases h : e.1 = k <;> simp [h]

/-- A key of `rlAppend m k v` is a key of `m` or `k` itself. -/
theorem keysOf_rlAppend_sub {m : List (String × List String)} {k v : String} :
    ∀ x ∈ keysOf (rlAppend m k v), x ∈ keysOf m ∨ x = k := by
  intro x hx
  unfold rlAppend at hx
  split at hx
  · unfold keysOf at hx
    rw [List.map_map] at hx
    obtain ⟨e, he, hex⟩ := List.mem_map.mp hx
    left
    have : (fun e => e.1) ∘ (fun e : String × List String =>
        if e.1 == k then (e.1, e.2 ++ [v]) else e) = fun e : String × List String => e.1 := by
      funext e
      by_cases h : e.1 = k <;> simp [h]
    rw [this] at hex
    exact hex ▸ List.mem_map_of_mem _ he
  · unfold keysOf at hx
    rw [List.map_append] at hx
    rcases List.mem_append.mp hx with h | h
    · exact Or.inl h
    · simp at h
      exact Or.inr h

/-- Reading through `mapUpdate`: the value at the updated key is mapped,
all other keys are untouched. -/
theorem mapFind_mapUpdate {α : Type} (m : List (String × α)) (k : String) (f : α → α)
    (a : String) :
    mapFind (mapUpdate m k f) a = if a = k then (mapFind m a).map f else mapFind m a := by
  unfold mapFind mapUpdate
  rw [List.find?_map]
  have hcomp : ((fun e : String × α => e.1 == a) ∘ fun e => if e.1 == k then (e.1, f e.2) else e)
      = fun e : String × α => e.1 == a := by
    funext e
    by_cases h : e.1 = k <;> simp [h]
  rw [hcomp, Option.map_map]
  by_cases hak : a = k
  · subst hak
    rw [if_pos rfl, Option.map_map]
    refine Option.map_congr (fun e he => ?_)
    have h1 := List.find?_some he
    rw [beq_iff_eq] at h1
    simp [Function.comp, h1]
  · rw [if_neg hak]
    refine Option.map_congr (fun e he => ?_)
    have h1 := List.find?_some he
    rw [beq_iff_eq] at h1
    have h2 : e.1 ≠ k := by rw [h1]; exact hak
    simp [Function.comp, h2]

/-- An entry of `mapInsert m k v` is an old entry or carries the new value. -/
theorem mem_mapInsert {α : Type} {m : List (String × α)} {k : String} {v : α} :
    ∀ e ∈ mapInsert m k v, e ∈ m ∨ e.2 = v := by
  intro e he
  unfold mapInsert at he
  split at he
  · obtain ⟨e0, he0, hee⟩ := List.mem_map.mp he
    by_cases h : e0.1 = k
    · right
      rw [← hee]
      simp [h]
    · left
      rw [← hee]
      simp [h]
      exact he0
  · rcases List.mem_append.mp he with h | h
    · exact Or.inl h
    · right
      simp at h
      rw [h]

/-- A found value comes from an entry with the looked-up key. -/
theorem mapFind_some_mem {α : Type} {m : List (String × α)} {k : String} {v : α}
    (h : mapFind m k = some v) : ∃ e ∈ m, e.1 = k ∧ e.2 = v := by
  unfold mapFind at h
  rw [Option.map_eq_some'] at h
  obtain ⟨e, he, hev⟩ := h
  refine ⟨e, List.mem_of_find?_eq_some he, ?_, hev⟩
  have := List.find?_some he
  rwa [beq_iff_eq] at this

/-- Pass 1 creates every node with the base flag off. -/
theorem buildPass1_isBase_false (files : List KustomizeFile) :
    ∀ e ∈ buildPass1 files, e.2.IsBase = false := by
  unfold buildPass1
  refine foldl_induction _
    (fun ns : List (String × Node) => ∀ e ∈ ns, e.2.IsBase = false) _ _ ?_ ?_
  · intro e he
    exact absurd he (List.not_mem_nil e)
  · intro ns f _ hns e he
    rcases mem_mapInsert e he with h | h
    · exact hns e h
    · rw [h]

/-- One dependency-resolution step preserves the build invariant. -/
theorem applyDep_inv {files : List KustomizeFile} {g : DependencyGraph}
    (f : KustomizeFile) (hf : f ∈ files) (dep : String)
    (hdep : dep ∈ extractDependencies f) (h : BuildInv files g) :
    BuildInv files (applyDep f.Dir g dep) := by
  obtain ⟨hkeys, hrl, hprov⟩ := h
  unfold applyDep
  by_cases hsome : (mapFind g.nodes (fpClean (fpJoin f.Dir dep))).isSome
  · rw [if_pos hsome]
    refine ⟨?_, ?_, ?_⟩
    · rw [keysOf_mapUpdate]
      exact hkeys
    · intro k hk
      rw [keysOf_mapUpdate]
      rcases keysOf_rlAppend_sub k hk with h | h
      · exact hrl k h
      · rw [h]
        exact mem_keysOf_of_mapFind_isSome hsome
    · intro k n hn hbase
      rw [mapFind_mapUpdate] at hn
      split at hn
      · rename_i hkk
        rw [Option.map_eq_some'] at hn
        obtain ⟨old, hold, hno⟩ := hn
        exact ⟨f, hf, dep, hdep, hkk.symm⟩
      · exact hprov k n hn hbase
  · rw [if_neg hsome]
    exact ⟨hkeys, hrl, hprov⟩

/-- Processing one unit in pass 2 preserves the build invariant. -/
theorem buildPass2File_inv {files : List KustomizeFile} {g : DependencyGraph}
    (f : KustomizeFile) (hf : f ∈ files) (h : BuildInv files g) :
    BuildInv files (buildPass2File g f) := by
  obtain ⟨hkeys, hrl, hprov⟩ := h
  unfold buildPass2File
  refine foldl_induction _ (BuildInv files) _ _ ?_ ?_
  · refine ⟨?_, ?_, ?_⟩
    · rw [keysOf_mapUpdate]
      exact hkeys
    · intro k hk
      rw [keysOf_mapUpdate]
      exact hrl k hk
    · intro k n hn hbase
      rw [mapFind_mapUpdate] at hn
      split at hn
      · rename_i hkk
        rw [Option.map_eq_some'] at hn
        obtain ⟨old, hold, hno⟩ := hn
        have : n.IsBase = old.IsBase := by rw [← hno]
        exact hprov k old hold (by rw [← this, hbase])
      · exact hprov k n hn hbase
  · intro b dep hdep hb
    exact applyDep_inv f hf dep hdep hb

/-- The build invariant holds for the fully built graph. -/
theorem buildGraph_inv (files : List KustomizeFile) : BuildInv files (buildGraph files) := by
  unfold buildGraph
  refine foldl_induction _ (BuildInv files) _ _ ?_ ?_
  · refine ⟨rfl, ?_, ?_⟩
    · intro k hk
      exact absurd hk (by simp [keysOf])
    · intro k n hn hbase
      obtain ⟨e, he, _, hev⟩ := mapFind_some_mem hn
      have := buildPass1_isBase_false files e he
      rw [hev] at this
      rw [this] at hbase
      exact absurd hbase (by simp)
  · intro b f hfmem hb
    exact buildPass2File_inv f hfmem hb

/-- Inversion of `IsBase`: a true flag exhibits the node. -/
theorem isBase_true_inv {g : DependencyGraph} {p : String} (h : IsBase g p = true) :
    ∃ n, mapFind g.nodes (fpClean p) = some n ∧ n.IsBase = true := by
  unfold IsBase at h
  rcases hm : mapFind g.nodes (fpClean p) with _ | n
  · rw [hm] at h
    exact absurd h (by simp)
  · rw [hm] at h
    exact ⟨n, rfl, h⟩

/-- C8: `Build` always succeeds, and only resolvable references contribute:
every base-marked path is an existing node that some unit's extracted
dependency resolves to, and every path with a nonempty reverse-dependent
list is an existing node — so a reference whose resolved path has no node
leaves no edge and marks no base, without failing the build. -/
theorem C8_build_best_effort (files : List KustomizeFile) :
    Build files = Except.ok (buildGraph files) ∧
    (∀ p, IsBase (buildGraph files) p = true →
      fpClean p ∈ keysOf (buildGraph files).nodes ∧
      ∃ f ∈ files, ∃ d ∈ extractDependencies f, fpClean (fpJoin f.Dir d) = fpClean p) ∧
    (∀ p, GetDependentOverlays (buildGraph files) p ≠ [] →
      fpClean p ∈ keysOf (buildGraph files).nodes) := by
  obtain ⟨hkeys, hrl, hprov⟩ := buildGraph_inv files
  refine ⟨rfl, ?_, ?_⟩
  · intro p hp
    obtain ⟨n, hn, hbase⟩ := isBase_true_inv hp
    refine ⟨mem_keysOf_of_mapFind_isSome (by rw [hn]; rfl), ?_⟩
    exact hprov (fpClean p) n hn hbase
  · intro p hp
    unfold GetDependentOverlays at hp
    rcases hm : mapFind (buildGraph files).reverseLookup (fpClean p) with _ | l
    · rw [hm] at hp
      exact absurd rfl hp
    · exact hrl (fpClean p) (mem_keysOf_of_mapFind_isSome (by rw [hm]; rfl))

/-- C8 witness: in the chain collection, the base directory is base-marked,
is a node, and is resolved-to by an extracted dependency of some unit. -/
theorem C8_witness :
    fpClean "/r/base" ∈ keysOf (buildGraph chainUnits).nodes ∧
    ∃ f ∈ chainUnits, ∃ d ∈ extractDependencies f,
      fpClean (fpJoin f.Dir d) = fpClean "/r/base" :=
  (C8_build_best_effort chainUnits).2.1 "/r/base" (by decide)

/-! ## Idempotence of `filepath.Clean` -/

/-- `splitSlash` always yields at least one component. -/
theorem splitSlash_ne_nil (l : List Char) : splitSlash l ≠ [] := by
  induction l with
  | nil => simp [splitSlash]
  | cons c cs ih =>
    unfold splitSlash
    split
    · simp
    · rcases h : splitSlash cs with _ | ⟨g, gs⟩
      · exact absurd h ih
      · simp [h]

/-- Components produced by `splitSlash` are separator-free. -/
theorem noSlash_splitSlash (l : List Char) : ∀ g ∈ splitSlash l, '/' ∉ g := by
  induction l with
  | nil => intro g hg; simp [splitSlash] at hg; simp [hg]
  | cons c cs ih =>
    intro g hg
    unfold splitSlash at hg
    split at hg
    · rcases List.mem_cons.mp hg with h | h
      · simp [h]
      · exact ih g h
    · rename_i hc
      rcases h : splitSlash cs with _ | ⟨g0, gs⟩
      · exact absurd h (splitSlash_ne_nil cs)
      · rw [h] at hg
        rcases List.mem_cons.mp hg with h1 | h1
        · rw [h1]
          intro hmem
          rcases List.mem_cons.mp hmem with h2 | h2
          · exact hc h2.symm
          · exact ih g0 (by rw [h]; exact List.mem_cons_self g0 gs) h2
        · exact ih g (by rw [h]; exact List.mem_cons_of_mem g0 h1)

/-- Prepending separator-free characters extends the first component. -/
theorem splitSlash_append_noSlash (w : List Char) (hw : '/' ∉ w) (cs : List Char)
    (g : List Char) (gs : List (List Char)) (h : splitSlash cs = g :: gs) :
    splitSlash (w ++ cs) = (w ++ g) :: gs := by
  induction w with
  | nil => simpa using h
  | cons a w' ih =>
    have ha : a ≠ '/' := fun hh => hw (by simp [hh])
    have hw' : '/' ∉ w' := fun hh => hw (by simp [hh])
    have ih' := ih hw'
    rw [List.cons_append]
    unfold splitSlash
    rw [if_neg ha, ih']
    simp

/-- A separator-free word splits into itself. -/
theorem splitSlash_noSlash_single (w : List Char) (hw : '/' ∉ w) : splitSlash w = [w] := by
  have h := splitSlash_append_noSlash w hw [] [] [] (by simp [splitSlash])
  simpa using h

/-- `splitSlash` inverts `joinComps` on separator-free components. -/
theorem splitSlash_joinComps (comps : List (List Char)) (hne : comps ≠ [])
    (hcomps : ∀ g ∈ comps, '/' ∉ g) : splitSlash (joinComps comps) = comps := by
  induction comps with
  | nil => exact absurd rfl hne
  | cons c rest ih =>
    rcases rest with _ | ⟨d, rest'⟩
    · exact splitSlash_noSlash_single c (hcomps c (by simp))
    · have htail : splitSlash (joinComps (d :: rest')) = d :: rest' :=
        ih (by simp) (fun g hg => hcomps g (List.mem_cons_of_mem c hg))
      have hcons : splitSlash ('/' :: joinComps (d :: rest')) =
          [] :: splitSlash (joinComps (d :: rest')) := by
        conv_lhs => unfold splitSlash
        rw [if_pos rfl]
      have := splitSlash_append_noSlash c (hcomps c (by simp))
        ('/' :: joinComps (d :: rest')) [] (d :: rest') (by rw [hcons, htail])
      have hj : joinComps (c :: d :: rest') = c ++ '/' :: joinComps (d :: rest') := rfl
      rw [hj, this]
      simp

/-- `normStep` preserves component well-formedness and stack shape. -/
theorem normStep_NF (rooted : Bool) (stack : List (List Char)) (c : List Char)
    (hc : '/' ∉ c) (h1 : NFComps stack) (h2 : NFShape rooted stack) :
    NFComps (normStep rooted stack c) ∧ NFShape rooted (normStep rooted stack c) := by
  obtain ⟨k, names, hsh, hdd, hk⟩ := h2
  unfold normStep
  split_ifs with hA hB hC
  · exact ⟨h1, k, names, hsh, hdd, hk⟩
  · -- pop case
    obtain ⟨hne, hlast⟩ := hC
    have hnames_ne : names ≠ [] := by
      intro hn
      rw [hn, List.append_nil] at hsh
      rcases Nat.eq_zero_or_pos k with hk0 | hkpos
      · rw [hk0] at hsh
        simp at hsh
        exact hne hsh
      · apply hlast
        rw [hsh, List.getLast?_replicate]
        rw [if_neg (Nat.pos_iff_ne_zero.mp hkpos)]
    have hsome : names.getLast?.isSome := List.getLast?_isSome.mpr hnames_ne
    obtain ⟨a, ha⟩ := Option.isSome_iff_exists.mp hsome
    have hnames_eq : names.dropLast ++ [a] = names :=
      List.dropLast_append_getLast? a ha
    have hstack_eq : stack = (List.replicate k ['.', '.'] ++ names.dropLast) ++ [a] := by
      rw [List.append_assoc, hnames_eq, hsh]
    constructor
    · intro g hg
      exact h1 g (List.mem_of_mem_dropLast hg)
    · refine ⟨k, names.dropLast, ?_, ?_, hk⟩
      · rw [hstack_eq, List.dropLast_concat]
      · intro hmem
        exact hdd (List.mem_of_mem_dropLast hmem)
  · -- rooted, cannot pop: unchanged
    exact ⟨h1, k, names, hsh, hdd, hk⟩
  · -- append ".."
    rename_i hrooted
    push_neg at hC
    constructor
    · intro g hg
      rcases List.mem_append.mp hg with h | h
      · exact h1 g h
      · simp at h
        rw [h]
        refine ⟨by simp, by simp, by decide⟩
    · by_cases hne : stack = []
      · refine ⟨1, [], ?_, by simp, ?_⟩
        · rw [hne]
          simp
        · intro hr
          exact absurd hr (by simp [hrooted])
      · have hlast := hC hne
        have hnames_nil : names = [] := by
          by_contra hn
          have := List.getLast?_append_of_ne_nil (List.replicate k ['.', '.']) hn
          rw [← hsh, hlast] at this
          have hsome : names.getLast?.isSome := List.getLast?_isSome.mpr hn
          obtain ⟨a, ha⟩ := Option.isSome_iff_exists.mp hsome
          rw [ha] at this
          have haeq : a = ['.', '.'] := by
            have := this.symm
            exact Option.some_injective _ this
          apply hdd
          rw [← haeq]
          have := List.dropLast_append_getLast? a ha
          rw [← this]
          exact List.mem_append_right _ (by simp)
        refine ⟨k + 1, [], ?_, by simp, ?_⟩
        · rw [hsh, hnames_nil, List.append_nil, List.append_nil, ← List.replicate_succ']
        · intro hr
          exact absurd hr (by simp [hrooted])
  · -- append a plain component
    constructor
    · intro g hg
      rcases List.mem_append.mp hg with h | h
      · exact h1 g h
      · simp at h
        rw [h]
        push_neg at hA
        exact ⟨hA.1, hA.2, hc⟩
    · refine ⟨k, names ++ [c], ?_, ?_, hk⟩
      · rw [hsh, List.append_assoc]
      · intro hmem
        rcases List.mem_append.mp hmem with h | h
        · exact hdd h
        · simp at h
          exact hB h.symm

/-- `cleanStack` produces a well-formed stack from separator-free input. -/
theorem cleanStack_NF (rooted : Bool) (comps : List (List Char))
    (hcomps : ∀ g ∈ comps, '/' ∉ g) :
    NFComps (cleanStack rooted comps) ∧ NFShape rooted (cleanStack rooted comps) := by
  unfold cleanStack
  refine foldl_induction _
    (fun s : List (List Char) => NFComps s ∧ NFShape rooted s) _ _ ?_ ?_
  · exact ⟨fun g hg => absurd hg (List.not_mem_nil g), 0, [], by simp, by simp, fun _ => rfl⟩
  · intro s c hc hs
    exact normStep_NF rooted s c (hcomps c hc) hs.1 hs.2

/-- On a plain component, `normStep` appends. -/
theorem normStep_append_name (rooted : Bool) (stack : List (List Char)) (c : List Char)
    (h : c ≠ [] ∧ c ≠ ['.'] ∧ c ≠ ['.', '.']) : normStep rooted stack c = stack ++ [c] := by
  unfold normStep
  rw [if_neg (by push_neg; exact ⟨h.1, h.2.1⟩), if_neg h.2.2]

/-- Plain components are folded by appending. -/
theorem foldl_normStep_names (rooted : Bool) (names : List (List Char))
    (h : ∀ c ∈ names, c ≠ [] ∧ c ≠ ['.'] ∧ c ≠ ['.', '.']) :
    ∀ stack, List.foldl (normStep rooted) stack names = stack ++ names := by
  induction names with
  | nil => intro stack; simp
  | cons c rest ih =>
    intro stack
    rw [List.foldl_cons, normStep_append_name rooted stack c (h c (by simp))]
    rw [ih (fun x hx => h x (by simp [hx])) (stack ++ [c]), List.append_assoc]
    rfl

/-- A `".."` lands on an all-`".."` non-rooted stack by appending. -/
theorem normStep_dd (j : Nat) :
    normStep false (List.replicate j ['.', '.']) ['.', '.'] =
      List.replicate (j + 1) ['.', '.'] := by
  cases j with
  | zero => decide
  | succ n =>
    have hpop : ¬(List.replicate (n + 1) ['.', '.'] ≠ [] ∧
        (List.replicate (n + 1) ['.', '.']).getLast? ≠ some ['.', '.']) := by
      push_neg
      intro _
      rw [List.getLast?_replicate, if_neg (Nat.succ_ne_zero n)]
    unfold normStep
    rw [if_neg (by decide), if_pos rfl, if_neg hpop, if_neg (by decide),
      ← List.replicate_succ']

/-- A run of `".."` components is folded by concatenation (non-rooted). -/
theorem foldl_normStep_dd (k : Nat) :
    ∀ j, List.foldl (normStep false) (List.replicate j ['.', '.'])
      (List.replicate k ['.', '.']) = List.replicate (j + k) ['.', '.'] := by
  induction k with
  | zero => intro j; simp
  | succ n ih =>
    intro j
    rw [List.replicate_succ, List.foldl_cons, normStep_dd j, ih (j + 1)]
    congr 1
    omega

/-- Cleaning a cleaned stack changes nothing. -/
theorem cleanStack_fixpoint (rooted : Bool) (stack : List (List Char))
    (h1 : NFComps stack) (h2 : NFShape rooted stack) : cleanStack rooted stack = stack := by
  obtain ⟨k, names, hsh, hdd, hk⟩ := h2
  have hnames : ∀ c ∈ names, c ≠ [] ∧ c ≠ ['.'] ∧ c ≠ ['.', '.'] := by
    intro c hc
    have hmem : c ∈ stack := by
      rw [hsh]
      exact List.mem_append_right _ hc
    refine ⟨(h1 c hmem).1, (h1 c hmem).2.1, ?_⟩
    intro hcd
    exact hdd (hcd ▸ hc)
  unfold cleanStack
  rw [hsh, List.foldl_append]
  cases rooted with
  | true =>
    rw [hk rfl]
    simp only [List.replicate, List.foldl_nil]
    rw [foldl_normStep_names true names hnames []]
  | false =>
    have h0 : List.foldl (normStep false) [] (List.replicate k ['.', '.']) =
        List.replicate k ['.', '.'] := by
      have := foldl_normStep_dd k 0
      simpa using this
    rw [h0, foldl_normStep_names false names hnames]

/-- Joined nonempty components form a nonempty character list. -/
theorem joinComps_ne_nil (stack : List (List Char)) (hne : stack ≠ [])
    (h : ∀ g ∈ stack, g ≠ []) : joinComps stack ≠ [] := by
  rcases stack with _ | ⟨g, rest⟩
  · exact absurd rfl hne
  · rcases rest with _ | ⟨d, r⟩
    · exact h g (by simp)
    · show g ++ '/' :: joinComps (d :: r) ≠ []
      simp

/-- Joined separator-free nonempty components never start with the
separator. -/
theorem isRooted_joinComps (stack : List (List Char)) (hne : stack ≠ [])
    (h1 : ∀ g ∈ stack, g ≠ []) (h2 : ∀ g ∈ stack, '/' ∉ g) :
    isRooted (joinComps stack) = false := by
  rcases stack with _ | ⟨g, rest⟩
  · exact absurd rfl hne
  · have hg : g ≠ [] := h1 g (by simp)
    rcases g with _ | ⟨gc, g'⟩
    · exact absurd rfl hg
    · have hgmem : '/' ∉ gc :: g' := h2 (gc :: g') (by simp)
      have hgc : gc ≠ '/' := fun h => hgmem (by simp [h])
      rcases rest with _ | ⟨d, r⟩
      · show isRooted (gc :: g') = false
        simp [isRooted, hgc]
      · show isRooted ((gc :: g') ++ '/' :: joinComps (d :: r)) = false
        simp [isRooted, hgc]

/-- A built string is empty only when built from no characters. -/
theorem mk_eq_empty_iff (l : List Char) : String.mk l = "" ↔ l = [] := by
  constructor
  · intro h
    have := congrArg String.data h
    simpa using this
  · intro h
    rw [h]

/-- The cleaned form of a nonempty path, written without `let`. -/
theorem fpClean_eq (p : String) (hp : p ≠ "") :
    fpClean p =
      if cleanStack (isRooted p.data) (splitSlash p.data) = [] then
        (if isRooted p.data then "/" else ".")
      else if isRooted p.data then
        String.mk ('/' :: joinComps (cleanStack (isRooted p.data) (splitSlash p.data)))
      else String.mk (joinComps (cleanStack (isRooted p.data) (splitSlash p.data))) := by
  unfold fpClean
  rw [if_neg hp]

/-- `filepath.Clean` is idempotent. -/
theorem fpClean_idem (p : String) : fpClean (fpClean p) = fpClean p := by
  by_cases hp : p = ""
  · rw [hp]
    decide
  · rw [fpClean_eq p hp]
    cases hb : isRooted p.data
    · -- not rooted
      have hnf := cleanStack_NF false (splitSlash p.data) (noSlash_splitSlash p.data)
      obtain ⟨h1, h2⟩ := hnf
      by_cases hstack : cleanStack false (splitSlash p.data) = []
      · rw [if_pos hstack, if_neg (by decide : ¬(false = true))]
        decide
      · rw [if_neg hstack, if_neg (by decide : ¬(false = true))]
        have hcompne : ∀ g ∈ cleanStack false (splitSlash p.data), g ≠ [] :=
          fun g hg => (h1 g hg).1
        have hnoslash : ∀ g ∈ cleanStack false (splitSlash p.data), '/' ∉ g :=
          fun g hg => (h1 g hg).2.2
        have hjoin_ne : joinComps (cleanStack false (splitSlash p.data)) ≠ [] :=
          joinComps_ne_nil _ hstack hcompne
        have hqne : String.mk (joinComps (cleanStack false (splitSlash p.data))) ≠ "" :=
          fun h => hjoin_ne ((mk_eq_empty_iff _).mp h)
        rw [fpClean_eq _ hqne]
        have hdata : (String.mk (joinComps (cleanStack false (splitSlash p.data)))).data
            = joinComps (cleanStack false (splitSlash p.data)) := rfl
        rw [hdata, isRooted_joinComps _ hstack hcompne hnoslash,
          splitSlash_joinComps _ hstack hnoslash, cleanStack_fixpoint false _ h1 h2,
          if_neg hstack, if_neg (by decide : ¬(false = true))]
    · -- rooted
      have hnf := cleanStack_NF true (splitSlash p.data) (noSlash_splitSlash p.data)
      obtain ⟨h1, h2⟩ := hnf
      by_cases hstack : cleanStack true (splitSlash p.data) = []
      · rw [if_pos hstack, if_pos rfl]
        decide
      · rw [if_neg hstack, if_pos rfl]
        have hcompne : ∀ g ∈ cleanStack true (splitSlash p.data), g ≠ [] :=
          fun g hg => (h1 g hg).1
        have hnoslash : ∀ g ∈ cleanStack true (splitSlash p.data), '/' ∉ g :=
          fun g hg => (h1 g hg).2.2
        have hqne : String.mk ('/' :: joinComps (cleanStack true (splitSlash p.data))) ≠ "" :=
          fun h => by simpa using (mk_eq_empty_iff _).mp h
        rw [fpClean_eq _ hqne]
        have hdata : (String.mk ('/' :: joinComps (cleanStack true (splitSlash p.data)))).data
            = '/' :: joinComps (cleanStack true (splitSlash p.data)) := rfl
        have hroot : isRooted ('/' :: joinComps (cleanStack true (splitSlash p.data)))
            = true := by simp [isRooted]
        have hsplit3 : splitSlash ('/' :: joinComps (cleanStack true (splitSlash p.data)))
            = [] :: cleanStack true (splitSlash p.data) := by
          conv_lhs => unfold splitSlash
          rw [if_pos rfl, splitSlash_joinComps _ hstack hnoslash]
        have hclean2 : cleanStack true ([] :: cleanStack true (splitSlash p.data))
            = cleanStack true (splitSlash p.data) := by
          unfold cleanStack
          rw [List.foldl_cons]
          have hz : normStep true [] [] = [] := by decide
          rw [hz]
          exact cleanStack_fixpoint true _ h1 h2
        rw [hdata, hroot, hsplit3, hclean2, if_neg hstack, if_pos rfl]

/-! ## Queries on unknown paths (claim C9) -/

/-- A present key is found. -/
theorem mapFind_isSome_of_mem_keys {α : Type} {m : List (String × α)} {k : String}
    (h : k ∈ keysOf m) : (mapFind m k).isSome := by
  unfold mapFind
  rw [Option.isSome_map']
  rw [List.find?_isSome]
  obtain ⟨e, he, hek⟩ := List.mem_map.mp h
  exact ⟨e, he, by simp [hek]⟩

/-- C9: at a path with no node (after canonicalization), `IsBase` is false
and both dependent queries return the empty sequence. -/
theorem C9_unknown_path_queries (files : List KustomizeFile) (p : String)
    (h : mapFind (buildGraph files).nodes (fpClean p) = none) :
    IsBase (buildGraph files) p = false ∧
    GetDependentOverlays (buildGraph files) p = [] ∧
    GetAllDependents (buildGraph files) p = [] := by
  obtain ⟨_, hrl, _⟩ := buildGraph_inv files
  have hnotkey : fpClean p ∉ keysOf (buildGraph files).nodes := by
    intro hk
    have := mapFind_isSome_of_mem_keys hk
    rw [h] at this
    exact absurd this (by simp)
  have hrlnone : mapFind (buildGraph files).reverseLookup (fpClean p) = none := by
    apply mapFind_eq_none_of_not_mem
    intro hk
    exact hnotkey (hrl _ hk)
  have hfind : (buildGraph files).reverseLookup.find? (fun e => e.1 == fpClean p) = none := by
    unfold mapFind at hrlnone
    exact Option.map_eq_none'.mp hrlnone
  refine ⟨?_, ?_, ?_⟩
  · unfold IsBase
    rw [h]
  · unfold GetDependentOverlays
    rw [hrlnone]
  · show collectLevel (buildGraph files).reverseLookup
      (totalRL (buildGraph files).reverseLookup + 1)
      (lookupRL (buildGraph files).reverseLookup (fpClean (fpClean p))) [] = []
    rw [fpClean_idem]
    unfold lookupRL
    rw [hfind]
    rfl

/-- C9 witness: a path absent from the chain collection answers false and
empty on every query. -/
theorem C9_witness :
    IsBase (buildGraph chainUnits) "/nope" = false ∧
    GetDependentOverlays (buildGraph chainUnits) "/nope" = [] ∧
    GetAllDependents (buildGraph chainUnits) "/nope" = [] :=
  C9_unknown_path_queries chainUnits "/nope" (by decide)

/-! ## The depth-first dependent collection (claims C6, C10) -/

/-- Dependent entries found by a lookup clean into the value universe. -/
theorem mem_cleanedVals {rl : List (String × List String)} {k e : String}
    (h : e ∈ lookupRL rl k) : fpClean e ∈ cleanedVals rl := by
  unfold cleanedVals
  rw [List.mem_dedup]
  apply List.mem_map_of_mem
  rw [List.mem_flatten]
  unfold lookupRL at h
  rcases hf : rl.find? (fun e => e.1 == k) with _ | en
  · rw [hf] at h
    exact absurd h (List.not_mem_nil e)
  · rw [hf] at h
    exact ⟨en.2, List.mem_map_of_mem _ (List.mem_of_find?_eq_some hf), h⟩

/-- A duplicate-free list included in another is no longer than it. -/
theorem length_le_of_nodup_subset {l1 l2 : List String} (h1 : l1.Nodup)
    (hsub : ∀ x ∈ l1, x ∈ l2) : l1.length ≤ l2.length := by
  calc l1.length = l1.toFinset.card := (List.toFinset_card_of_nodup h1).symm
    _ ≤ l2.toFinset.card :=
      Finset.card_le_card (fun x hx => List.mem_toFinset.mpr (hsub x (List.mem_toFinset.mp hx)))
    _ ≤ l2.length := List.toFinset_card_le l2

/-- `totalRL` is the summed length of all dependent lists. -/
theorem totalRL_eq (rl : List (String × List String)) :
    totalRL rl = ((rl.map (fun e => e.2)).map List.length).sum := by
  unfold totalRL
  suffices h : ∀ c, rl.foldl (fun n e => n + e.2.length) c
      = c + ((rl.map (fun e => e.2)).map List.length).sum by
    simpa using h 0
  induction rl with
  | nil => intro c; simp
  | cons e rest ih =>
    intro c
    rw [List.foldl_cons, ih]
    simp [add_assoc]

/-- The value universe is no larger than the total entry count. -/
theorem cleanedVals_length_le (rl : List (String × List String)) :
    (cleanedVals rl).length ≤ totalRL rl := by
  unfold cleanedVals
  calc ((((rl.map (fun e => e.2)).flatten).map fpClean).dedup).length
      ≤ (((rl.map (fun e => e.2)).flatten).map fpClean).length :=
        (List.dedup_sublist _).length_le
    _ = ((rl.map (fun e => e.2)).flatten).length := List.length_map _ _
    _ = ((rl.map (fun e => e.2)).map List.length).sum := List.length_flatten _
    _ = totalRL rl := (totalRL_eq rl).symm

/-- Unfolding `collectLevel` over a pending dependent. -/
theorem collectLevel_succ_cons (rl : List (String × List String)) (n : Nat)
    (dep : String) (rest acc : List String) :
    collectLevel rl (n + 1) (dep :: rest) acc =
      collectLevel rl (n + 1) rest
        (if fpClean dep ∈ acc then acc
         else collectLevel rl n (lookupRL rl (fpClean dep)) (acc ++ [fpClean dep])) := rfl

/-- Master property of the traversal: under sufficient fuel the visited
list only grows, stays duplicate-free inside the value universe, receives
every pending dependent, and is closed under reverse-dependency steps from
its new elements. -/
theorem collectLevel_master (rl : List (String × List String)) :
    ∀ (fuel : Nat) (l acc : List String),
      acc.Nodup →
      (∀ x ∈ acc, x ∈ cleanedVals rl) →
      (∀ d ∈ l, fpClean d ∈ cleanedVals rl) →
      (cleanedVals rl).length + 1 ≤ fuel + acc.length →
      ∃ t, collectLevel rl fuel l acc = acc ++ t ∧
        (acc ++ t).Nodup ∧
        (∀ x ∈ t, x ∈ cleanedVals rl) ∧
        (∀ d ∈ l, fpClean d ∈ acc ++ t) ∧
        (∀ x ∈ t, ∀ y, RStep rl x y → y ∈ acc ++ t) := by
  intro fuel
  induction fuel with
  | zero =>
    intro l acc h1 h2 _ h4
    exfalso
    have := length_le_of_nodup_subset h1 h2
    omega
  | succ n ihfuel =>
    intro l
    induction l with
    | nil =>
      intro acc h1 _ _ _
      exact ⟨[], by simp [collectLevel], by simpa using h1, by simp, by simp, by simp⟩
    | cons dep rest ihl =>
      intro acc h1 h2 h3 h4
      rw [collectLevel_succ_cons]
      by_cases hd : fpClean dep ∈ acc
      · rw [if_pos hd]
        obtain ⟨t, heq, hnodup, hsub, hpend, hclosed⟩ :=
          ihl acc h1 h2 (fun d hdm => h3 d (List.mem_cons_of_mem dep hdm)) h4
        refine ⟨t, heq, hnodup, hsub, ?_, hclosed⟩
        intro d hdm
        rcases List.mem_cons.mp hdm with rfl | hdm'
        · exact List.mem_append_left _ hd
        · exact hpend d hdm'
      · rw [if_neg hd]
        have hdD : fpClean dep ∈ cleanedVals rl := h3 dep (List.mem_cons_self dep rest)
        have h1' : (acc ++ [fpClean dep]).Nodup := by
          rw [List.nodup_append]
          exact ⟨h1, List.nodup_singleton _,
            fun a ha had => hd ((List.mem_singleton.mp had) ▸ ha)⟩
        have h2' : ∀ x ∈ acc ++ [fpClean dep], x ∈ cleanedVals rl := by
          intro x hx
          rcases List.mem_append.mp hx with h | h
          · exact h2 x h
          · rw [List.mem_singleton.mp h]
            exact hdD
        have h4' : (cleanedVals rl).length + 1 ≤ n + (acc ++ [fpClean dep]).length := by
          rw [List.length_append, List.length_singleton]
          omega
        obtain ⟨t1, heq1, hnodup1, hsub1, hpend1, hclosed1⟩ :=
          ihfuel (lookupRL rl (fpClean dep)) (acc ++ [fpClean dep]) h1' h2'
            (fun e he => mem_cleanedVals he) h4'
        have h2'' : ∀ x ∈ (acc ++ [fpClean dep]) ++ t1, x ∈ cleanedVals rl := by
          intro x hx
          rcases List.mem_append.mp hx with h | h
          · exact h2' x h
          · exact hsub1 x h
        have h4'' : (cleanedVals rl).length + 1
            ≤ (n + 1) + ((acc ++ [fpClean dep]) ++ t1).length := by
          rw [List.length_append, List.length_append, List.length_singleton]
          omega
        obtain ⟨t2, heq2, hnodup2, hsub2, hpend2, hclosed2⟩ :=
          ihl ((acc ++ [fpClean dep]) ++ t1) hnodup1 h2''
            (fun d hdm => h3 d (List.mem_cons_of_mem dep hdm)) h4''
        rw [heq1, heq2]
        have hassoc : ((acc ++ [fpClean dep]) ++ t1) ++ t2
            = acc ++ ([fpClean dep] ++ t1 ++ t2) := by
          simp [List.append_assoc]
        refine ⟨[fpClean dep] ++ t1 ++ t2, hassoc, by rw [← hassoc]; exact hnodup2, ?_, ?_, ?_⟩
        · intro x hx
          rcases List.mem_append.mp hx with h | h
          · rcases List.mem_append.mp h with h' | h'
            · rw [List.mem_singleton.mp h']
              exact hdD
            · exact hsub1 x h'
          · exact hsub2 x h
        · intro d hdm
          rcases List.mem_cons.mp hdm with rfl | hdm'
          · rw [← hassoc]
            refine List.mem_append_left _ ?_
            refine List.mem_append_left _ ?_
            exact List.mem_append_right _ (by simp)
          · rw [← hassoc]
            exact hpend2 d hdm'
        · intro x hx y hry
          rw [← hassoc]
          rcases List.mem_append.mp hx with h | h
          · rcases List.mem_append.mp h with h' | h'
            · obtain ⟨e, he, hye⟩ := List.mem_map.mp hry
              rw [List.mem_singleton.mp h'] at he
              refine List.mem_append_left _ ?_
              rw [← hye]
              exact hpend1 e he
            · refine List.mem_append_left _ ?_
              exact hclosed1 x h' y hry
          · exact hclosed2 x h y hry

/-- Specification of `GetAllDependents` derived from the master property:
the result is duplicate-free, drawn from the value universe, contains every
cleaned direct dependent of the cleaned start path, and is closed under
reverse-dependency steps. -/
theorem GetAllDependents_spec (g : DependencyGraph) (p : String) :
    ∃ t, GetAllDependents g p = t ∧ t.Nodup ∧
      (∀ x ∈ t, x ∈ cleanedVals g.reverseLookup) ∧
      (∀ d ∈ lookupRL g.reverseLookup (fpClean p), fpClean d ∈ t) ∧
      (∀ x ∈ t, ∀ y, RStep g.reverseLookup x y → y ∈ t) := by
  have h4 : (cleanedVals g.reverseLookup).length + 1
      ≤ (totalRL g.reverseLookup + 1) + ([] : List String).length := by
    have := cleanedVals_length_le g.reverseLookup
    simp only [List.length_nil, Nat.add_zero]
    omega
  obtain ⟨t, heq, hnodup, hsub, hpend, hclosed⟩ :=
    collectLevel_master g.reverseLookup (totalRL g.reverseLookup + 1)
      (lookupRL g.reverseLookup (fpClean (fpClean p))) []
      List.nodup_nil (by simp) (fun d hd => mem_cleanedVals hd) h4
  rw [fpClean_idem] at hpend
  refine ⟨t, ?_, by simpa using hnodup, hsub, ?_, ?_⟩
  · show collectLevel g.reverseLookup (totalRL g.reverseLookup + 1)
      (lookupRL g.reverseLookup (fpClean (fpClean p))) [] = t
    rw [heq]
    simp
  · intro d hd
    simpa using hpend d hd
  · intro x hx y hry
    simpa using hclosed x hx y hry

/-- C6: on every graph whose reverse-adjacency relation contains a cycle
(and whose dependent entries name graph nodes), `GetAllDependents`
terminates — it is a total function here, with fuel that the master
property shows is never exhausted — and lists each node at most once, so
its length is bounded by the number of nodes. -/
theorem C6_cycle_safe_traversal (g : DependencyGraph) (p : String)
    (_hcycle : ∃ x y, RStep g.reverseLookup x y ∧
      Relation.ReflTransGen (RStep g.reverseLookup) y x)
    (hvals : ∀ x ∈ cleanedVals g.reverseLookup, x ∈ keysOf g.nodes) :
    (GetAllDependents g p).Nodup ∧
    (GetAllDependents g p).length ≤ g.nodes.length := by
  obtain ⟨t, heq, hnodup, hsub, _, _⟩ := GetAllDependents_spec g p
  rw [heq]
  refine ⟨hnodup, ?_⟩
  have hlen : t.length ≤ (keysOf g.nodes).length :=
    length_le_of_nodup_subset hnodup (fun x hx => hvals x (hsub x hx))
  have hkl : (keysOf g.nodes).length = g.nodes.length := List.length_map _ _
  omega

/-- C6 witness: the three-node cycle of the test suite. -/
theorem C6_witness :
    (GetAllDependents cycleGraph "/test/a").Nodup ∧
    (GetAllDependents cycleGraph "/test/a").length ≤ cycleGraph.nodes.length := by
  have hac : RStep cycleGraph.reverseLookup "/test/a" "/test/c" := by
    show "/test/c" ∈ (lookupRL cycleGraph.reverseLookup "/test/a").map fpClean
    decide
  have hcb : RStep cycleGraph.reverseLookup "/test/c" "/test/b" := by
    show "/test/b" ∈ (lookupRL cycleGraph.reverseLookup "/test/c").map fpClean
    decide
  have hba : RStep cycleGraph.reverseLookup "/test/b" "/test/a" := by
    show "/test/a" ∈ (lookupRL cycleGraph.reverseLookup "/test/b").map fpClean
    decide
  exact C6_cycle_safe_traversal cycleGraph "/test/a"
    ⟨"/test/a", "/test/c", hac,
      Relation.ReflTransGen.tail
        (Relation.ReflTransGen.tail Relation.ReflTransGen.refl hcb) hba⟩
    (by decide)

/-- C10: when the reverse-adjacency relation has a cycle through the
cleaned start path, `GetAllDependents` includes the start path itself in
its result (the start is not pre-marked visited, so the traversal
re-reaches it through the cycle), still listing every node at most once. -/
theorem C10_cycle_reaches_start (g : DependencyGraph) (p : String)
    (hcycle : ∃ y, RStep g.reverseLookup (fpClean p) y ∧
      Relation.ReflTransGen (RStep g.reverseLookup) y (fpClean p)) :
    fpClean p ∈ GetAllDependents g p ∧ (GetAllDependents g p).Nodup := by
  obtain ⟨t, heq, hnodup, _, hpend, hclosed⟩ := GetAllDependents_spec g p
  obtain ⟨y, hstep, hchain⟩ := hcycle
  have hy : y ∈ t := by
    obtain ⟨e, he, hye⟩ := List.mem_map.mp hstep
    rw [← hye]
    exact hpend e he
  have hreach : ∀ z, Relation.ReflTransGen (RStep g.reverseLookup) y z → z ∈ t := by
    intro z hz
    induction hz with
    | refl => exact hy
    | tail hab hbc ih => exact hclosed _ ih _ hbc
  rw [heq]
  exact ⟨hreach (fpClean p) hchain, hnodup⟩

/-- C10 witness: in the test cycle the start node reappears in its own
dependent closure. -/
theorem C10_witness :
    fpClean "/test/a" ∈ GetAllDependents cycleGraph "/test/a" ∧
    (GetAllDependents cycleGraph "/test/a").Nodup := by
  have hstep : RStep cycleGraph.reverseLookup (fpClean "/test/a") "/test/c" := by
    show "/test/c" ∈ (lookupRL cycleGraph.reverseLookup (fpClean "/test/a")).map fpClean
    decide
  have hcb : RStep cycleGraph.reverseLookup "/test/c" "/test/b" := by
    show "/test/b" ∈ (lookupRL cycleGraph.reverseLookup "/test/c").map fpClean
    decide
  have hba : RStep cycleGraph.reverseLookup "/test/b" "/test/a" := by
    show "/test/a" ∈ (lookupRL cycleGraph.reverseLookup "/test/b").map fpClean
    decide
  have hchain : Relation.ReflTransGen (RStep cycleGraph.reverseLookup)
      "/test/c" (fpClean "/test/a") := by
    have h : fpClean "/test/a" = "/test/a" := by decide
    rw [h]
    exact Relation.ReflTransGen.tail
      (Relation.ReflTransGen.tail Relation.ReflTransGen.refl hcb) hba
  exact C10_cycle_reaches_start cycleGraph "/test/a" ⟨"/test/c", hstep, hchain⟩
